import Mathlib

/-!
Shallow embedding of the core of the chatbot-with-rag repository:
the hybrid retrieval engine (`apps/backend/src/services/retrieval_service.py`),
the semantic chunker and document pipeline (`src/services/document_service.py`),
and the embedding generator (`src/core/bedrock_client.py`).

Python floats are modelled as exact rationals (the properties at issue are
order and threshold comparisons on scores, where the float computations of
the source agree with exact rational arithmetic on all inputs exercised
here).  External collaborators — the database searches, the embedding
backend, the filesystem and document parsing libraries — are oracle
parameters, matching the narrow interfaces the source calls them through.
-/

/-- Whitespace as Python's `str.strip` / regex `\s` treats it: the ASCII
whitespace characters plus the CJK ideographic space (the only non-ASCII
whitespace relevant to this corpus). -/
def pyIsSpace (c : Char) : Bool :=
  c = ' ' || c = '\t' || c = '\n' || c = '\r' || c = '\x0b' || c = '\x0c' || c = '　'

/-- Python `str.strip()` on a list of characters: drop leading and trailing
whitespace. -/
def pyStripL (l : List Char) : List Char :=
  ((l.dropWhile pyIsSpace).reverse.dropWhile pyIsSpace).reverse

/-- Python `str.strip()` on a `String`. -/
def pyStrip (s : String) : String :=
  String.mk (pyStripL s.toList)

/-- Substring test: `pat` occurs contiguously in the second list
(Python's `pat in s`). -/
def contains_substring (pat : List Char) : List Char → Bool
  | [] => pat.isEmpty
  | c :: cs => pat.isPrefixOf (c :: cs) || contains_substring pat cs

/-- The throttling test of `hybrid_search` (retrieval_service.py lines
206-207): `"ThrottlingException" in str(e) or "Too many requests" in str(e)`. -/
def is_throttling_error (e : String) : Bool :=
  contains_substring "ThrottlingException".toList e.toList ||
  contains_substring "Too many requests".toList e.toList

/-- One search result dict as built by `semantic_search` / `bm25_search` and
consumed by `_normalize_scores` / `_merge_results`.  The optional fields model
dict keys that are absent until a later stage writes them
(`normalized_score`, and the `semantic_score` / `bm25_score` keys that only
merged results carry). -/
structure Result where
  chunk_id : String
  content : String
  metadata : String
  document_id : String
  file_name : String
  score : ℚ
  normalized_score : Option ℚ
  semantic_score : Option ℚ
  bm25_score : Option ℚ
  search_type : String
deriving DecidableEq, Repr

/-- `min(scores)` over a result list (Python's builtin `min`; the `[]` case is
never reached by the source, which returns early on empty input). -/
def min_score_of : List Result → ℚ
  | [] => 0
  | r :: rs => rs.foldl (fun a x => min a x.score) r.score

/-- `max(scores)` over a result list. -/
def max_score_of : List Result → ℚ
  | [] => 0
  | r :: rs => rs.foldl (fun a x => max a x.score) r.score

/-- Write the `normalized_score` key of one result dict. -/
def set_normalized (v : ℚ) (r : Result) : Result :=
  { r with normalized_score := some v }

/-- `RetrievalService._normalize_scores` (retrieval_service.py lines 258-285):
min-max normalization, with every score set to `1.0` when the range is zero. -/
def normalize_scores (results : List Result) : List Result :=
  match results with
  | [] => results
  | _ :: _ =>
    let mn := min_score_of results
    let mx := max_score_of results
    if mx - mn = 0 then
      results.map (set_normalized 1)
    else
      results.map (fun r => set_normalized ((r.score - mn) / (mx - mn)) r)

/-- First element of the list whose `chunk_id` is `cid`. -/
def find_by_id : List Result → String → Option Result
  | [], _ => none
  | r :: rs, cid => if r.chunk_id = cid then some r else find_by_id rs cid

/-- The dict built by a comprehension `{r["chunk_id"]: r for r in l}`: for a
given key, the binding is the last list element with that `chunk_id`. -/
def lookup_by_id (l : List Result) (cid : String) : Option Result :=
  find_by_id l.reverse cid

/-- Key order used for the union of the two lookup dicts.  The source iterates
a Python `set`, whose order is unspecified; the model fixes first-occurrence
order (semantic list first).  None of the proved properties depend on this
order, and every concrete counterexample below is arranged so that the scores
determine the final ranking regardless of it. -/
def dedup_first (seen : List String) : List String → List String
  | [] => []
  | x :: xs => if x ∈ seen then dedup_first seen xs else x :: dedup_first (x :: seen) xs

/-- `RetrievalService._merge_results` (retrieval_service.py lines 287-344):
weighted blend over the union of chunk ids, missing sides scored 0, base
fields taken from the semantic result when both exist. -/
def merge_results (semantic_results bm25_results : List Result)
    (semantic_weight bm25_weight : ℚ) : List Result :=
  let all_chunk_ids :=
    dedup_first [] (semantic_results.map (·.chunk_id) ++ bm25_results.map (·.chunk_id))
  all_chunk_ids.filterMap (fun cid =>
    let semantic_result := lookup_by_id semantic_results cid
    let bm25_result := lookup_by_id bm25_results cid
    -- `semantic_result.get("normalized_score", 0.0) if semantic_result else 0.0`
    let semantic_score : ℚ := semantic_result.elim 0 (fun r => r.normalized_score.getD 0)
    let bm25_score : ℚ := bm25_result.elim 0 (fun r => r.normalized_score.getD 0)
    let combined_score := semantic_weight * semantic_score + bm25_weight * bm25_score
    -- `base_result = semantic_result or bm25_result`
    let base_result := semantic_result.orElse (fun _ => bm25_result)
    -- the source indexes `base_result` directly; a `None` base is unreachable
    -- because every id comes from one of the two lists
    base_result.map (fun b =>
      { chunk_id := cid, content := b.content, metadata := b.metadata,
        document_id := b.document_id, file_name := b.file_name,
        score := combined_score, normalized_score := none,
        semantic_score := some semantic_score, bm25_score := some bm25_score,
        search_type := "hybrid" }))

/-- Insert into a descending-sorted list, before the first element of smaller
or equal score (the placement Python's stable descending sort gives an
earlier-listed element). -/
def insert_desc (x : Result) : List Result → List Result
  | [] => [x]
  | y :: ys => if y.score ≤ x.score then x :: y :: ys else y :: insert_desc x ys

/-- `merged_results.sort(key=lambda x: x["score"], reverse=True)`: stable sort
by combined score, descending. -/
def sort_by_score_desc : List Result → List Result
  | [] => []
  | x :: xs => insert_desc x (sort_by_score_desc xs)

/-- `RetrievalService.hybrid_search` (retrieval_service.py lines 176-256).
The query-embedding call is an oracle outcome (`.error e` models
`generate_query_embedding` raising with message `e`); `semantic_search` and
`bm25_search` are oracles from the requested limit to the ranked rows the
database returns, as the source delegates both rankings to PostgreSQL.
`default_semantic_ratio` models `settings.SEMANTIC_SEARCH_RATIO` and
`relevance_threshold` models `settings.RELEVANCE_THRESHOLD`.  Note the
`semantic_ratio or settings.SEMANTIC_SEARCH_RATIO` truthiness default: the
value `0.0` is replaced by the configured default. -/
def hybrid_search (query_embedding_result : Except String Unit)
    (semantic_search : Nat → List Result) (bm25_search : Nat → List Result)
    (top_k : Nat) ( semantic_ratio : Option ℚ)
    ( default_semantic_ratio relevance_threshold : ℚ) : Except String (List Result) :=
  let ratio : ℚ :=
    match semantic_ratio with
    | none => default_semantic_ratio
    | some x => if x = 0 then default_semantic_ratio else x
  let bm25_ratio : ℚ := 1 - ratio
  match query_embedding_result with
  | .error e =>
    if is_throttling_error e then
      .ok (bm25_search top_k)
    else
      .error e
  | .ok _ =>
    let retrieve_k := top_k * 2
    let semantic_results := semantic_search retrieve_k
    let bm25_results := bm25_search retrieve_k
    let semantic_normalized := normalize_scores semantic_results
    let bm25_normalized := normalize_scores bm25_results
    let merged := merge_results semantic_normalized bm25_normalized ratio bm25_ratio
    let sorted := sort_by_score_desc merged
    let top_results := sorted.take top_k
    .ok (top_results.filter (fun r => relevance_threshold ≤ r.score))

/-- A result row with only id, raw score and search type populated, as the
concrete examples need. -/
def mkResult (cid : String) (sc : ℚ) (st : String) : Result :=
  { chunk_id := cid, content := "", metadata := "", document_id := "",
    file_name := "", score := sc, normalized_score := none,
    semantic_score := none, bm25_score := none, search_type := st }

theorem foldl_min_le_init (rs : List Result) (a : ℚ) :
    rs.foldl (fun b x => min b x.score) a ≤ a := by
  induction rs generalizing a with
  | nil => simp [List.foldl]
  | cons x xs ih => exact le_trans (ih (min a x.score)) (min_le_left _ _)

theorem foldl_min_le_mem (rs : List Result) :
    ∀ (a : ℚ) (x : Result), x ∈ rs → rs.foldl (fun b y => min b y.score) a ≤ x.score := by
  induction rs with
  | nil => intro a x hx; cases hx
  | cons y ys ih =>
    intro a x hx
    rcases List.mem_cons.mp hx with h | h
    · subst h
      exact le_trans (foldl_min_le_init ys (min a x.score)) (min_le_right _ _)
    · exact ih (min a y.score) x h

theorem init_le_foldl_max (rs : List Result) (a : ℚ) :
    a ≤ rs.foldl (fun b x => max b x.score) a := by
  induction rs generalizing a with
  | nil => simp [List.foldl]
  | cons x xs ih => exact le_trans (le_max_left _ _) (ih (max a x.score))

theorem mem_le_foldl_max (rs : List Result) :
    ∀ (a : ℚ) (x : Result), x ∈ rs → x.score ≤ rs.foldl (fun b y => max b y.score) a := by
  induction rs with
  | nil => intro a x hx; cases hx
  | cons y ys ih =>
    intro a x hx
    rcases List.mem_cons.mp hx with h | h
    · subst h
      exact le_trans (le_max_right _ _) (init_le_foldl_max ys (max a x.score))
    · exact ih (max a y.score) x h

theorem min_score_of_le (results : List Result) (r : Result) (hr : r ∈ results) :
    min_score_of results ≤ r.score := by
  match results with
  | [] => cases hr
  | r0 :: rs =>
    rcases List.mem_cons.mp hr with h | h
    · subst h; exact foldl_min_le_init rs r.score
    · exact foldl_min_le_mem rs r0.score r h

theorem le_max_score_of (results : List Result) (r : Result) (hr : r ∈ results) :
    r.score ≤ max_score_of results := by
  match results with
  | [] => cases hr
  | r0 :: rs =>
    rcases List.mem_cons.mp hr with h | h
    · subst h; exact init_le_foldl_max rs r.score
    · exact mem_le_foldl_max rs r0.score r h

theorem min_score_le_max_score (results : List Result) (h : results ≠ []) :
    min_score_of results ≤ max_score_of results := by
  match results with
  | [] => exact absurd rfl h
  | r0 :: rs =>
    exact le_trans (min_score_of_le _ r0 (List.mem_cons_self _ _))
      (le_max_score_of _ r0 (List.mem_cons_self _ _))

theorem foldl_min_eq_init_or_mem (rs : List Result) (a : ℚ) :
    rs.foldl (fun b y => min b y.score) a = a ∨
    ∃ x ∈ rs, rs.foldl (fun b y => min b y.score) a = x.score := by
  induction rs generalizing a with
  | nil => left; rfl
  | cons y ys ih =>
    rcases ih (min a y.score) with h | ⟨x, hx, he⟩
    · rcases min_choice a y.score with h2 | h2
      · left; simpa [h2] using h
      · right; exact ⟨y, List.mem_cons_self _ _, by simpa [h2] using h⟩
    · right; exact ⟨x, List.mem_cons_of_mem _ hx, he⟩

theorem foldl_max_eq_init_or_mem (rs : List Result) (a : ℚ) :
    rs.foldl (fun b y => max b y.score) a = a ∨
    ∃ x ∈ rs, rs.foldl (fun b y => max b y.score) a = x.score := by
  induction rs generalizing a with
  | nil => left; rfl
  | cons y ys ih =>
    rcases ih (max a y.score) with h | ⟨x, hx, he⟩
    · rcases max_choice a y.score with h2 | h2
      · left; simpa [h2] using h
      · right; exact ⟨y, List.mem_cons_self _ _, by simpa [h2] using h⟩
    · right; exact ⟨x, List.mem_cons_of_mem _ hx, he⟩

theorem normalize_scores_cons (r0 : Result) (rs : List Result) :
    normalize_scores (r0 :: rs) =
      if max_score_of (r0 :: rs) - min_score_of (r0 :: rs) = 0 then
        (r0 :: rs).map (set_normalized 1)
      else
        (r0 :: rs).map (fun r =>
          set_normalized ((r.score - min_score_of (r0 :: rs)) /
            (max_score_of (r0 :: rs) - min_score_of (r0 :: rs))) r) := rfl

/-- C7: for every non-empty candidate result set, `_normalize_scores` gives each
entry a `normalized_score` in `[0,1]`, equal to `(score - min) / (max - min)`
whenever the score range is non-zero; and when all scores in the set are equal
(including a one-element set), every entry is normalized to `1.0`. -/
theorem normalize_scores_spec (results : List Result) (h : results ≠ []) :
    (∀ r ∈ normalize_scores results,
        ∃ v, r.normalized_score = some v ∧ 0 ≤ v ∧ v ≤ 1 ∧
          (max_score_of results - min_score_of results ≠ 0 →
            v = (r.score - min_score_of results) /
                (max_score_of results - min_score_of results)))
    ∧ ((∀ x ∈ results, ∀ y ∈ results, x.score = y.score) →
        ∀ r ∈ normalize_scores results, r.normalized_score = some 1) := by
  match results with
  | [] => exact absurd rfl h
  | r0 :: rs =>
    constructor
    · intro r hr
      by_cases hrange : max_score_of (r0 :: rs) - min_score_of (r0 :: rs) = 0
      · refine ⟨1, ?_, by norm_num, by norm_num, fun hc => absurd hrange hc⟩
        rw [normalize_scores_cons, if_pos hrange] at hr
        rcases List.mem_map.mp hr with ⟨r1, _, he⟩
        rw [← he]; rfl
      · have hlt : 0 < max_score_of (r0 :: rs) - min_score_of (r0 :: rs) :=
          lt_of_le_of_ne (sub_nonneg.mpr (min_score_le_max_score _ (List.cons_ne_nil _ _)))
            (Ne.symm hrange)
        rw [normalize_scores_cons, if_neg hrange] at hr
        rcases List.mem_map.mp hr with ⟨r1, hr1, he⟩
        have hsc : r.score = r1.score := by rw [← he]; rfl
        have hns : r.normalized_score =
            some ((r1.score - min_score_of (r0 :: rs)) /
              (max_score_of (r0 :: rs) - min_score_of (r0 :: rs))) := by
          rw [← he]; rfl
        refine ⟨_, hns, ?_, ?_, fun _ => by rw [hsc]⟩
        · exact div_nonneg (sub_nonneg.mpr (min_score_of_le _ r1 hr1)) (le_of_lt hlt)
        · exact (div_le_one hlt).mpr (sub_le_sub_right (le_max_score_of _ r1 hr1) _)
    · intro hall r hr
      have hmn : min_score_of (r0 :: rs) = r0.score := by
        rcases foldl_min_eq_init_or_mem rs r0.score with he | ⟨x, hx, he⟩
        · exact he
        · exact he.trans (hall x (List.mem_cons_of_mem _ hx) r0 (List.mem_cons_self _ _))
      have hmx : max_score_of (r0 :: rs) = r0.score := by
        rcases foldl_max_eq_init_or_mem rs r0.score with he | ⟨x, hx, he⟩
        · exact he
        · exact he.trans (hall x (List.mem_cons_of_mem _ hx) r0 (List.mem_cons_self _ _))
      rw [normalize_scores_cons, hmn, hmx, sub_self, if_pos rfl] at hr
      rcases List.mem_map.mp hr with ⟨r1, _, he⟩
      rw [← he]; rfl

/-- C7 witness: the theorem applied to the concrete two-element candidate set
with raw scores 0 and 1. -/
theorem normalize_scores_spec_witness :
    ([mkResult "a" 0 "semantic", mkResult "b" 1 "semantic"] ≠ ([] : List Result)) ∧
    ((∀ r ∈ normalize_scores [mkResult "a" 0 "semantic", mkResult "b" 1 "semantic"],
        ∃ v, r.normalized_score = some v ∧ 0 ≤ v ∧ v ≤ 1 ∧
          (max_score_of [mkResult "a" 0 "semantic", mkResult "b" 1 "semantic"] -
              min_score_of [mkResult "a" 0 "semantic", mkResult "b" 1 "semantic"] ≠ 0 →
            v = (r.score - min_score_of [mkResult "a" 0 "semantic", mkResult "b" 1 "semantic"]) /
                (max_score_of [mkResult "a" 0 "semantic", mkResult "b" 1 "semantic"] -
                 min_score_of [mkResult "a" 0 "semantic", mkResult "b" 1 "semantic"])))
    ∧ ((∀ x ∈ [mkResult "a" 0 "semantic", mkResult "b" 1 "semantic"],
          ∀ y ∈ [mkResult "a" 0 "semantic", mkResult "b" 1 "semantic"], x.score = y.score) →
        ∀ r ∈ normalize_scores [mkResult "a" 0 "semantic", mkResult "b" 1 "semantic"],
          r.normalized_score = some 1)) :=
  ⟨List.cons_ne_nil _ _, normalize_scores_spec _ (List.cons_ne_nil _ _)⟩

/-- C1 (amended): in every `hybrid_search` call whose query embedding succeeds,
every returned result has combined score at least the configured relevance
threshold, and at most `top_k` results are returned (so the result may be
shorter than `top_k`, including empty). -/
theorem hybrid_search_relevance_floor
    (semantic_search bm25_search : Nat → List Result) (top_k : Nat)
    ( semantic_ratio : Option ℚ) ( default_semantic_ratio relevance_threshold : ℚ)
    (l : List Result)
    (h : hybrid_search (.ok ()) semantic_search bm25_search top_k semantic_ratio
          default_semantic_ratio relevance_threshold = .ok l) :
    (∀ r ∈ l, relevance_threshold ≤ r.score) ∧ l.length ≤ top_k := by
  simp only [hybrid_search] at h
  injection h with h
  subst h
  constructor
  · intro r hr
    exact of_decide_eq_true (List.mem_filter.mp hr).2
  · exact le_trans (List.length_filter_le _ _) (List.length_take_le _ _)

/-- C1 witness: the theorem applied to the empty corpus at `top_k = 3`,
threshold `3/10`. -/
theorem hybrid_search_relevance_floor_witness :
    (hybrid_search (.ok ()) (fun _ => []) (fun _ => []) 3 none (1/2) (3/10)
       = .ok ([] : List Result)) ∧
    ((∀ r ∈ ([] : List Result), (3/10 : ℚ) ≤ r.score) ∧ ([] : List Result).length ≤ 3) :=
  ⟨rfl, hybrid_search_relevance_floor (fun _ => []) (fun _ => []) 3 none (1/2) (3/10) [] rfl⟩

/-- C1 counterexample: when the query-embedding call fails with a throttling
error, `hybrid_search` returns the raw BM25 results without applying the
relevance filter, so a result with score `1/10 < 3/10` is returned even though
the configured relevance floor is `3/10`. -/
theorem hybrid_search_relevance_floor_cex :
    hybrid_search (.error "ThrottlingException") (fun _ => [])
      (fun _ => [mkResult "b1" (1/10) "bm25"]) 1 none (1/2) (3/10)
      = .ok [mkResult "b1" (1/10) "bm25"] ∧
    (mkResult "b1" (1/10) "bm25").score < 3/10 := by
  constructor
  · rfl
  · norm_num [mkResult]

/-- Chunk ids of a retrieval response, in rank order. -/
def result_chunk_ids (e : Except String (List Result)) : List String :=
  match e with
  | .ok l => l.map (·.chunk_id)
  | .error _ => []

/-- C2 (amended): (a) passing `semantic_ratio = 0.0` is identical to omitting
it — the truthiness default substitutes the configured ratio, so the pure
lexical ranking is unreachable through `hybrid_search`; (b) with weights
`(1, 0)` every merged result's combined score equals the normalized semantic
score of its chunk (`0` for chunks absent from the semantic candidates); and
(c) min-max normalization preserves the order of raw semantic scores.  So at
`semantic_ratio = 1.0` the merged ranking refines the pure semantic order on
semantic candidates, but BM25-only candidates, the `top_k` truncation and the
relevance filter can still make the returned list differ from the pure
semantic ranking. -/
theorem hybrid_search_blend_boundary_amended :
    (∀ (qe : Except String Unit) (ss bs : Nat → List Result) (k : Nat) (d th : ℚ),
       hybrid_search qe ss bs k (some 0) d th = hybrid_search qe ss bs k none d th)
    ∧ (∀ (semN bmN : List Result) (r : Result),
         r ∈ merge_results semN bmN 1 0 →
         r.score = (lookup_by_id semN r.chunk_id).elim 0 (fun s => s.normalized_score.getD 0))
    ∧ (∀ (l : List Result) (a b : Result), a ∈ normalize_scores l →
         b ∈ normalize_scores l → a.score ≤ b.score →
         a.normalized_score.getD 0 ≤ b.normalized_score.getD 0) := by
  refine ⟨fun qe ss bs k d th => rfl, ?_, ?_⟩
  · intro semN bmN r hr
    simp only [merge_results] at hr
    rcases List.mem_filterMap.mp hr with ⟨cid, _, hf⟩
    rcases ho : (lookup_by_id semN cid).orElse (fun _ => lookup_by_id bmN cid) with _ | b
    · rw [ho] at hf
      simp at hf
    · rw [ho] at hf
      simp only [Option.map_some'] at hf
      injection hf with hf
      subst hf
      simp
  · intro l a b ha hb hab
    match l with
    | [] => cases ha
    | r0 :: rs =>
      rw [normalize_scores_cons] at ha hb
      by_cases hrange : max_score_of (r0 :: rs) - min_score_of (r0 :: rs) = 0
      · rw [if_pos hrange] at ha hb
        rcases List.mem_map.mp ha with ⟨a0, _, hae⟩
        rcases List.mem_map.mp hb with ⟨b0, _, hbe⟩
        rw [← hae, ← hbe]
        simp [set_normalized]
      · have hlt : 0 < max_score_of (r0 :: rs) - min_score_of (r0 :: rs) :=
          lt_of_le_of_ne (sub_nonneg.mpr (min_score_le_max_score _ (List.cons_ne_nil _ _)))
            (Ne.symm hrange)
        rw [if_neg hrange] at ha hb
        rcases List.mem_map.mp ha with ⟨a0, _, hae⟩
        rcases List.mem_map.mp hb with ⟨b0, _, hbe⟩
        have hab' : a0.score ≤ b0.score := by
          rw [← hae, ← hbe] at hab
          simpa [set_normalized] using hab
        rw [← hae, ← hbe]
        simp only [set_normalized, Option.getD_some]
        exact div_le_div_of_nonneg_right (sub_le_sub_right hab' _) hlt.le

/-- C2 witness: the monotonicity conjunct applied to a concrete two-element
semantic candidate set. -/
theorem hybrid_search_blend_boundary_amended_witness :
    (set_normalized 0 (mkResult "A" 0 "semantic") ∈
      normalize_scores [mkResult "A" 0 "semantic", mkResult "B" 1 "semantic"]) ∧
    (set_normalized 1 (mkResult "B" 1 "semantic") ∈
      normalize_scores [mkResult "A" 0 "semantic", mkResult "B" 1 "semantic"]) ∧
    (set_normalized 0 (mkResult "A" 0 "semantic")).score ≤
      (set_normalized 1 (mkResult "B" 1 "semantic")).score ∧
    (set_normalized 0 (mkResult "A" 0 "semantic")).normalized_score.getD 0 ≤
      (set_normalized 1 (mkResult "B" 1 "semantic")).normalized_score.getD 0 := by
  have h1 : set_normalized 0 (mkResult "A" 0 "semantic") ∈
      normalize_scores [mkResult "A" 0 "semantic", mkResult "B" 1 "semantic"] := by
    norm_num +decide [normalize_scores_cons, min_score_of, max_score_of, set_normalized, mkResult]
  have h2 : set_normalized 1 (mkResult "B" 1 "semantic") ∈
      normalize_scores [mkResult "A" 0 "semantic", mkResult "B" 1 "semantic"] := by
    norm_num +decide [normalize_scores_cons, min_score_of, max_score_of, set_normalized, mkResult]
  have h3 : (set_normalized 0 (mkResult "A" 0 "semantic")).score ≤
      (set_normalized 1 (mkResult "B" 1 "semantic")).score := by
    norm_num [set_normalized, mkResult]
  exact ⟨h1, h2, h3, hybrid_search_blend_boundary_amended.2.2 _ _ _ h1 h2 h3⟩

/-- Fixed semantic-candidate oracle used by the C2 counterexample: two chunks
with raw cosine similarities `9/10` and `1/2`. -/
def cexSemOracle : Nat → List Result := fun _ =>
  [mkResult "A" (9/10) "semantic", mkResult "B" (1/2) "semantic"]

/-- Fixed BM25 oracle used by the C2 counterexample: no lexical matches. -/
def cexBmOracle : Nat → List Result := fun _ => []

/-- C2 counterexample: with `semantic_ratio = 1.0` the hybrid response ranks
`["A"]` (chunk B is cut by the relevance floor) while the pure semantic
ranking is `["A", "B"]`; and with `semantic_ratio = 0.0` the truthiness
default replaces the weight with the configured `1/2`, so the response is
`["A"]` while the pure lexical ranking is empty. -/
theorem hybrid_search_blend_boundary_cex :
    result_chunk_ids
        (hybrid_search (.ok ()) cexSemOracle cexBmOracle 5 (some 1) (1/2) (3/10)) = ["A"] ∧
    (cexSemOracle (5 * 2)).map (·.chunk_id) = ["A", "B"] ∧
    result_chunk_ids
        (hybrid_search (.ok ()) cexSemOracle cexBmOracle 5 (some 0) (1/2) (3/10)) = ["A"] ∧
    (cexBmOracle 5).map (·.chunk_id) = [] ∧
    (["A"] : List String) ≠ ["A", "B"] ∧ (["A"] : List String) ≠ [] := by
  refine ⟨?_, by simp [cexSemOracle, mkResult], ?_, by simp [cexBmOracle], by simp, by simp⟩
  · norm_num +decide [hybrid_search, result_chunk_ids, cexSemOracle, cexBmOracle,
      normalize_scores, min_score_of, max_score_of, merge_results, dedup_first, lookup_by_id,
      find_by_id, sort_by_score_desc, insert_desc, set_normalized, mkResult,
      List.filterMap_cons, List.filter_cons, List.take_succ_cons]
  · norm_num +decide [hybrid_search, result_chunk_ids, cexSemOracle, cexBmOracle,
      normalize_scores, min_score_of, max_score_of, merge_results, dedup_first, lookup_by_id,
      find_by_id, sort_by_score_desc, insert_desc, set_normalized, mkResult,
      List.filterMap_cons, List.filter_cons, List.take_succ_cons]

/-- `re.sub(r"[ \t]+", " ", text)`: collapse each run of spaces/tabs to one
space; the Boolean records whether the previous character was in a run. -/
def collapse_space_tab (prev : Bool) : List Char → List Char
  | [] => []
  | c :: cs =>
    if c = ' ' ∨ c = '\t' then
      if prev then collapse_space_tab true cs else ' ' :: collapse_space_tab true cs
    else c :: collapse_space_tab false cs

/-- Replacement for one run of `k` newlines under `re.sub(r"\n{3,}", "\n\n", ·)`. -/
def emit_newlines (k : Nat) : List Char :=
  List.replicate (if 3 ≤ k then 2 else k) '\n'

/-- `re.sub(r"\n{3,}", "\n\n", text)`: `k` counts the newline run in progress. -/
def collapse_newlines (k : Nat) : List Char → List Char
  | [] => emit_newlines k
  | c :: cs =>
    if c = '\n' then collapse_newlines (k + 1) cs
    else emit_newlines k ++ c :: collapse_newlines 0 cs

/-- The whitespace normalization of `chunk_text` (document_service.py lines
246-249): collapse space/tab runs, collapse 3+ newlines to 2, then strip. -/
def normalize_whitespace (l : List Char) : List Char :=
  pyStripL (collapse_newlines 0 (collapse_space_tab false l))

/-- The CJK numerals of the structure-marker character class. -/
def cjk_numeral (c : Char) : Bool :=
  c = '一' || c = '二' || c = '三' || c = '四' || c = '五' || c = '六' ||
  c = '七' || c = '八' || c = '九' || c = '十' || c = '百'

/-- Match `第<class>+條` at the current position: `c` is the current character
and `cs` the remaining text; the result is the number of characters of `cs`
the match consumes.  Maximal munch agrees with the greedy regex because `條`
is not in the character class. -/
def match_di_tiao (classC : Char → Bool) (c : Char) (cs : List Char) : Option Nat :=
  if c = '第' then
    let run := cs.takeWhile classC
    if run.length = 0 then none
    else
      match cs.drop run.length with
      | d :: _ => if d = '條' then some (run.length + 1) else none
      | [] => none
  else none

/-- Match `<keyword>\s+\d+` case-insensitively at the current position
(`kw_tail` is the lowercased keyword without its first character, `head_lower`
that first character).  `\s+` and `\d+` are maximal munch, which agrees with
the greedy regex because the whitespace and digit classes are disjoint. -/
def match_keyword_num (kw_tail : List Char) (head_lower : Char) (c : Char)
    (cs : List Char) : Option Nat :=
  if c.toLower = head_lower then
    if (cs.take kw_tail.length).map Char.toLower = kw_tail then
      let rest := cs.drop kw_tail.length
      let sp := rest.takeWhile pyIsSpace
      if sp.length = 0 then none
      else
        let rest2 := rest.drop sp.length
        let dg := rest2.takeWhile Char.isDigit
        if dg.length = 0 then none
        else some (kw_tail.length + sp.length + dg.length)
    else none
  else none

/-- `Article\s+\d+` with `re.IGNORECASE`. -/
def match_article (c : Char) (cs : List Char) : Option Nat :=
  match_keyword_num "rticle".toList 'a' c cs

/-- `Section\s+\d+` with `re.IGNORECASE`. -/
def match_section (c : Char) (cs : List Char) : Option Nat :=
  match_keyword_num "ection".toList 's' c cs

/-- Number of non-overlapping matches, as `re.findall` counts them: on a
match, scanning resumes after the matched span; otherwise it advances one
character. -/
def scan_count (m : Char → List Char → Option Nat) : List Char → Nat
  | [] => 0
  | c :: cs =>
    match m c cs with
    | some n => 1 + scan_count m (cs.drop n)
    | none => scan_count m cs
termination_by l => l.length
decreasing_by
  · simp only [List.length_drop, List.length_cons]
    omega
  · simp only [List.length_cons]
    omega

/-- `_is_structured_document` (document_service.py lines 274-299): structured
when the four marker patterns have at least 3 matches combined. -/
def is_structured_document (l : List Char) : Bool :=
  decide (3 ≤ scan_count (match_di_tiao cjk_numeral) l + scan_count match_article l +
    scan_count match_section l + scan_count (match_di_tiao (fun c => c.isDigit)) l)

/-- Start positions of the non-overlapping matches, as `re.finditer` yields
them. -/
def scan_starts (m : Char → List Char → Option Nat) (i : Nat) : List Char → List Nat
  | [] => []
  | c :: cs =>
    match m c cs with
    | some n => i :: scan_starts m (i + 1 + n) (cs.drop n)
    | none => scan_starts m (i + 1) cs
termination_by l => l.length
decreasing_by
  · simp only [List.length_drop, List.length_cons]
    omega
  · simp only [List.length_cons]
    omega

/-- Combined pattern `(第[一二三四五六七八九十百\d]+條|Article\s+\d+|Section\s+\d+)`
of `_split_by_articles`; the three alternatives start with distinct
characters, so the alternation order is immaterial. -/
def match_any_marker (c : Char) (cs : List Char) : Option Nat :=
  match match_di_tiao (fun d => cjk_numeral d || d.isDigit) c cs with
  | some n => some n
  | none =>
    match match_article c cs with
    | some n => some n
    | none => match_section c cs

/-- `DocumentProcessor._split_by_articles` (document_service.py lines
301-332): slice the text from each marker start to the next marker start (or
the end), strip, and drop empties; text before the first marker is discarded;
`[text]` when there is no marker. -/
def split_by_articles (l : List Char) : List (List Char) :=
  let starts := scan_starts match_any_marker 0 l
  match starts with
  | [] => [l]
  | _ :: _ =>
    (List.zip starts (starts.drop 1 ++ [l.length])).filterMap (fun se =>
      let piece := pyStripL ((l.drop se.1).take (se.2 - se.1))
      if piece = [] then none else some piece)

/-- Index of the last newline of a whitespace run: the point the greedy `\s*`
of `\n\s*\n` backtracks to. -/
def last_newline_idx (run : List Char) : Option Nat :=
  match run.reverse.findIdx? (fun c => c == '\n') with
  | some j => some (run.length - 1 - j)
  | none => none

/-- `re.split(r"\n\s*\n", text)` (document_service.py line 345): the pieces of
the text between blank-line separators; `acc` holds the reversed current
piece. -/
def split_paragraph_pieces (acc : List Char) : List Char → List (List Char)
  | [] => [acc.reverse]
  | c :: cs =>
    if c = '\n' then
      match last_newline_idx (cs.takeWhile pyIsSpace) with
      | some j => acc.reverse :: split_paragraph_pieces [] (cs.drop (j + 1))
      | none => split_paragraph_pieces (c :: acc) cs
    else split_paragraph_pieces (c :: acc) cs
termination_by l => l.length
decreasing_by
  · simp only [List.length_drop, List.length_cons]
    omega
  · simp only [List.length_cons]
    omega
  · simp only [List.length_cons]
    omega

/-- `DocumentProcessor._split_by_paragraphs` (document_service.py lines
334-350). -/
def split_by_paragraphs (l : List Char) : List (List Char) :=
  let ps := ((split_paragraph_pieces [] l).map pyStripL).filter (fun p => p ≠ [])
  if ps = [] then [l] else ps

/-- Sentence terminators of `_split_by_sentences`: `[。！？\.!\?]`. -/
def is_sentence_terminator (c : Char) : Bool :=
  c = '。' || c = '！' || c = '？' || c = '.' || c = '!' || c = '?'

theorem dropWhile_length_le (p : Char → Bool) :
    ∀ l : List Char, (l.dropWhile p).length ≤ l.length
  | [] => le_refl _
  | a :: as => by
    rw [List.dropWhile_cons]
    split
    · exact le_trans (dropWhile_length_le p as) (Nat.le_succ _)
    · exact le_refl _

/-- `re.split(r"[。！？\.!\?]+\s*", text)`: pieces between terminator runs with
their trailing whitespace. -/
def split_sentence_pieces (acc : List Char) : List Char → List (List Char)
  | [] => [acc.reverse]
  | c :: cs =>
    if is_sentence_terminator c then
      acc.reverse ::
        split_sentence_pieces [] ((cs.dropWhile is_sentence_terminator).dropWhile pyIsSpace)
    else split_sentence_pieces (c :: acc) cs
termination_by l => l.length
decreasing_by
  · have h1 := dropWhile_length_le pyIsSpace (cs.dropWhile is_sentence_terminator)
    have h2 := dropWhile_length_le is_sentence_terminator cs
    simp only [List.length_cons]
    omega
  · simp only [List.length_cons]
    omega

/-- The sentence list of `_split_by_sentences` (document_service.py lines
427-429): `[s.strip() for s in sentences if s.strip()]`. -/
def sentences_of (l : List Char) : List (List Char) :=
  ((split_sentence_pieces [] l).map pyStripL).filter (fun p => p ≠ [])

/-- Python `text[-n:]`, including the `-0` quirk: slicing with `-0` yields the
whole text. -/
def py_slice_last (l : List Char) (n : Nat) : List Char :=
  if n = 0 then l else l.drop (l.length - n)

/-- `DocumentProcessor._get_overlap_text` (document_service.py lines 449-471):
the last `overlap_size` characters, advanced past the first space (and
stripped) when that space is at a positive position. -/
def get_overlap_text (text : List Char) (overlap_size : Nat) : List Char :=
  if text.length ≤ overlap_size then text
  else
    let overlap_text := py_slice_last text overlap_size
    match overlap_text.findIdx? (fun c => c == ' ') with
    | some p => if 0 < p then pyStripL (overlap_text.drop p) else overlap_text
    | none => overlap_text

/-- One step of the sentence-packing loop of `_split_by_sentences`
(document_service.py lines 434-441); the state is (chunks so far, current
buffer). -/
def sentence_pack_step (max_size overlap : Nat)
    (st : List (List Char) × List Char) (s : List Char) :
    List (List Char) × List Char :=
  if st.2 ≠ [] ∧ max_size < st.2.length + s.length then
    (st.1 ++ [pyStripL st.2], get_overlap_text st.2 overlap ++ ' ' :: s)
  else
    (st.1, if st.2 ≠ [] then st.2 ++ ' ' :: s else s)

/-- `DocumentProcessor._split_by_sentences` (document_service.py lines
412-447). -/
def split_by_sentences (text : List Char) (max_size overlap : Nat) :
    List (List Char) :=
  let st := (sentences_of text).foldl (sentence_pack_step max_size overlap) ([], [])
  if st.2 ≠ [] then st.1 ++ [pyStripL st.2] else st.1

/-- The Case-1 body of `_process_semantic_units` (document_service.py lines
377-393) for a unit that fits within `max_size`: flush the buffer when
appending would overflow (seeding the next buffer with overlap text), append
the unit joined by a blank line, then flush again when the buffer has reached
`min_size` and either 70% of `max_size` or the unit equals the last unit.
The float test `len(current) >= max_size * 0.7` is modelled exactly as
`7 * max_size ≤ 10 * len(current)`; the two agree at every integer length. -/
def pack_unit_step (last_unit : List Char) (min_size max_size overlap : Nat)
    (cur u : List Char) : List (List Char) × List Char :=
  let fl1 := if cur ≠ [] ∧ max_size < cur.length + u.length
    then ([pyStripL cur], get_overlap_text cur overlap)
    else ([], cur)
  let cur2 := if fl1.2 ≠ [] then fl1.2 ++ '\n' :: '\n' :: u else u
  if min_size ≤ cur2.length ∧ (7 * max_size ≤ 10 * cur2.length ∨ u = last_unit) then
    (fl1.1 ++ [pyStripL cur2], [])
  else
    (fl1.1, cur2)

/-- The unit loop of `_process_semantic_units` (document_service.py lines
374-410): oversized units are split by sentences after flushing any pending
buffer; the trailing buffer is flushed at the end when its strip is
non-empty. -/
def process_units (last_unit : List Char) (min_size max_size overlap : Nat) :
    List (List Char) → List Char → List (List Char)
  | [], cur => if cur ≠ [] ∧ pyStripL cur ≠ [] then [pyStripL cur] else []
  | u :: us, cur =>
    if u.length ≤ max_size then
      let st := pack_unit_step last_unit min_size max_size overlap cur u
      st.1 ++ process_units last_unit min_size max_size overlap us st.2
    else
      (if cur ≠ [] then [pyStripL cur] else []) ++
        split_by_sentences u max_size overlap ++
        process_units last_unit min_size max_size overlap us []

/-- `DocumentProcessor._process_semantic_units` (document_service.py lines
352-410); `units[-1]` is the value the `unit == units[-1]` test compares
against, and the final `[c for c in chunks if c]` drops empty strings. -/
def process_semantic_units (units : List (List Char))
    (min_size max_size overlap : Nat) : List (List Char) :=
  (process_units ((units.getLast?).getD []) min_size max_size overlap units []).filter
    (fun c => c ≠ [])

/-- `max_chunk_size = chunk_size or 1000`: the Python truthiness default
replaces both `None` and `0`. -/
def resolve_chunk_size (chunk_size : Option Nat) : Nat :=
  match chunk_size with
  | none => 1000
  | some n => if n = 0 then 1000 else n

/-- `overlap = overlap or 100`: the Python truthiness default replaces both
`None` and `0`. -/
def resolve_overlap (overlap : Option Nat) : Nat :=
  match overlap with
  | none => 100
  | some n => if n = 0 then 100 else n

/-- The semantic units of `chunk_text` (document_service.py lines 252-259):
articles/sections for a structured document, paragraphs otherwise. -/
def chunk_units (t : List Char) : List (List Char) :=
  if is_structured_document t then split_by_articles t else split_by_paragraphs t

/-- `DocumentProcessor.chunk_text` (document_service.py lines 214-272) on the
character-list representation; `min_chunk_size` is the hardcoded 300. -/
def chunk_text_chars (text : List Char) (chunk_size overlap : Option Nat) :
    List (List Char) :=
  let max_chunk_size := resolve_chunk_size chunk_size
  let min_chunk_size := 300
  let ov := resolve_overlap overlap
  if text = [] ∨ pyStripL text = [] then []
  else
    process_semantic_units (chunk_units (normalize_whitespace text))
      min_chunk_size max_chunk_size ov

/-- `chunk_text` on strings, as callers use it. -/
def chunk_text (text : String) (chunk_size overlap : Option Nat) : List String :=
  (chunk_text_chars text.toList chunk_size overlap).map String.mk

/-- C10: calling `chunk_text` with `chunk_size = 0` or `overlap = 0` behaves
identically to omitting the parameters: the `chunk_size or 1000` /
`overlap or 100` truthiness checks replace the zero values with the defaults,
so `chunk_text(text, 0, 0) = chunk_text(text, 1000, 100)` and a caller cannot
request a zero-character overlap. -/
theorem chunk_text_truthiness_defaults :
    ∀ text : String, chunk_text text (some 0) (some 0) = chunk_text text none none ∧
      chunk_text text (some 0) (some 0) = chunk_text text (some 1000) (some 100) :=
  fun _ => ⟨rfl, rfl⟩

/-- C3 counterexample: `chunk_text("aaaa\n\nbbbb", chunk_size=6, overlap=3)`
produces the chunk `"aaa\n\nbbbb"` of length 9 > 6 even though every sentence
of every semantic unit is within `max_size`: the overflow test
`len(current) + len(unit) > max_size` does not count the two-character
`"\n\n"` joiner, and the buffer is reseeded with the 3-character overlap text
before the second unit is appended. -/
theorem chunk_size_bound_cex :
    chunk_text_chars "aaaa\n\nbbbb".toList (some 6) (some 3)
      = ["aaaa".toList, "aaa\n\nbbbb".toList] ∧
    resolve_chunk_size (some 6) < "aaa\n\nbbbb".toList.length ∧
    ((chunk_units (normalize_whitespace "aaaa\n\nbbbb".toList)).all
      (fun u => (sentences_of u).all
        (fun s => decide (s.length ≤ resolve_chunk_size (some 6))))) = true := by
  refine ⟨?_, by decide, ?_⟩ <;>
  simp +decide [chunk_text_chars, chunk_units, normalize_whitespace, collapse_space_tab,
    collapse_newlines, emit_newlines, pyStripL, is_structured_document, scan_count,
    match_di_tiao, match_article, match_section, match_keyword_num, cjk_numeral,
    split_by_paragraphs, split_paragraph_pieces, last_newline_idx, pyStrip,
    process_semantic_units, process_units, pack_unit_step, get_overlap_text,
    sentences_of, split_sentence_pieces, is_sentence_terminator, py_slice_last,
    resolve_chunk_size, resolve_overlap, pyIsSpace]

/-- C4 counterexample: with `min_size = 3`, `max_size = 10`, `overlap = 3`,
the units `"abcdefg"` and `"hijklmn"` each reach 70% of `max_size` and are
flushed with the buffer reset to empty, so the adjacent chunks share no
overlap: the word-aligned trailing 3 characters of the first chunk are not a
prefix of the second. -/
theorem chunk_overlap_cex :
    process_semantic_units ["abcdefg".toList, "hijklmn".toList] 3 10 3
      = ["abcdefg".toList, "hijklmn".toList] ∧
    ¬ get_overlap_text "abcdefg".toList 3 <+: "hijklmn".toList := by
  refine ⟨by decide, by decide⟩

theorem pyStripL_length_le (l : List Char) : (pyStripL l).length ≤ l.length := by
  unfold pyStripL
  rw [List.length_reverse]
  refine le_trans (dropWhile_length_le _ _) ?_
  rw [List.length_reverse]
  exact dropWhile_length_le _ _

theorem get_overlap_text_length_le (t : List Char) (ov : Nat) (hov : 0 < ov) :
    (get_overlap_text t ov).length ≤ ov := by
  unfold get_overlap_text
  split
  · assumption
  · rename_i hlen
    have hs : (py_slice_last t ov).length = ov := by
      unfold py_slice_last
      rw [if_neg (Nat.pos_iff_ne_zero.mp hov)]
      rw [List.length_drop]
      omega
    rcases hf : (py_slice_last t ov).findIdx? (fun c => c == ' ') with _ | p
    · simp only [hf]
      omega
    · simp only [hf]
      split
      · calc (pyStripL ((py_slice_last t ov).drop p)).length
            ≤ ((py_slice_last t ov).drop p).length := pyStripL_length_le _
          _ ≤ (py_slice_last t ov).length := by rw [List.length_drop]; omega
          _ = ov := hs
      · omega

/-- Length of the longest sentence of a unit (0 when there is none). -/
def max_sentence_len (u : List Char) : Nat :=
  (sentences_of u).foldr (fun s m => max s.length m) 0

theorem length_le_foldr_max : ∀ (L : List (List Char)) (s : List Char), s ∈ L →
    s.length ≤ L.foldr (fun x m => max x.length m) 0
  | [], _, h => absurd h (List.not_mem_nil _)
  | x :: xs, s, h => by
    rcases List.mem_cons.mp h with h1 | h1
    · subst h1; exact le_max_left _ _
    · exact le_trans (length_le_foldr_max xs s h1) (le_max_right _ _)

theorem exists_mem_of_foldr_max_pos : ∀ (L : List (List Char)),
    0 < L.foldr (fun x m => max x.length m) 0 →
    ∃ s ∈ L, s.length = L.foldr (fun x m => max x.length m) 0 := by
  intro L
  induction L with
  | nil => intro h; simp at h
  | cons x xs ih =>
    intro h
    by_cases hc : xs.foldr (fun y m => max y.length m) 0 ≤ x.length
    · exact ⟨x, List.mem_cons_self _ _, (max_eq_left hc).symm⟩
    · push_neg at hc
      rcases ih (lt_of_le_of_lt (Nat.zero_le _) hc) with ⟨s, hs, he⟩
      refine ⟨s, List.mem_cons_of_mem _ hs, ?_⟩
      rw [List.foldr_cons, max_eq_right (le_of_lt hc)]
      exact he

theorem sentence_fold_bound (maxS ov : Nat) (hov : 0 < ov) (M : Nat) :
    ∀ (ss : List (List Char)) (st : List (List Char) × List Char),
      (∀ s ∈ ss, s.length ≤ M) →
      (∀ c ∈ st.1, c.length ≤ max maxS M + ov + 1) →
      st.2.length ≤ max maxS M + ov + 1 →
      (∀ c ∈ (ss.foldl (sentence_pack_step maxS ov) st).1,
          c.length ≤ max maxS M + ov + 1) ∧
      (ss.foldl (sentence_pack_step maxS ov) st).2.length ≤ max maxS M + ov + 1
  | [], _, _, h1, h2 => ⟨h1, h2⟩
  | s :: ss, st, hss, h1, h2 => by
    rw [List.foldl_cons]
    have hsM : s.length ≤ M := hss s (List.mem_cons_self _ _)
    refine sentence_fold_bound maxS ov hov M ss _
      (fun x hx => hss x (List.mem_cons_of_mem _ hx)) ?_ ?_
    · intro c hc
      unfold sentence_pack_step at hc
      split at hc
      · rcases List.mem_append.mp hc with h | h
        · exact h1 c h
        · rw [List.mem_singleton] at h
          subst h
          exact le_trans (pyStripL_length_le _) h2
      · exact h1 c hc
    · unfold sentence_pack_step
      split
      · rename_i hcond
        simp only [List.length_append, List.length_cons]
        have ho := get_overlap_text_length_le st.2 ov hov
        have hM := le_max_right maxS M
        omega
      · rename_i hcond
        push_neg at hcond
        split
        · rename_i hne
          have hle := hcond hne
          simp only [List.length_append, List.length_cons]
          have hM := le_max_left maxS M
          omega
        · show s.length ≤ max maxS M + ov + 1
          have hM := le_max_right maxS M
          omega

theorem split_by_sentences_bound (u : List Char) (maxS ov : Nat) (hov : 0 < ov) :
    ∀ c ∈ split_by_sentences u maxS ov,
      c.length ≤ max maxS (max_sentence_len u) + ov + 1 := by
  intro c hc
  simp only [split_by_sentences] at hc
  have h := sentence_fold_bound maxS ov hov (max_sentence_len u) (sentences_of u) ([], [])
    (fun s hs => length_le_foldr_max _ s hs) (fun x hx => absurd hx (List.not_mem_nil _))
    (by simp)
  split at hc
  · rcases List.mem_append.mp hc with h1 | h1
    · exact h.1 c h1
    · rw [List.mem_singleton] at h1
      subst h1
      exact le_trans (pyStripL_length_le _) h.2
  · exact h.1 c hc

theorem pack_unit_step_bound (last_unit : List Char) (minS maxS ov : Nat) (hov : 0 < ov)
    (cur u : List Char) (hcur : cur.length ≤ maxS + ov + 2) (hu : u.length ≤ maxS) :
    (∀ c ∈ (pack_unit_step last_unit minS maxS ov cur u).1, c.length ≤ maxS + ov + 2) ∧
    (pack_unit_step last_unit minS maxS ov cur u).2.length ≤ maxS + ov + 2 := by
  have hstrip := pyStripL_length_le cur
  have ho := get_overlap_text_length_le cur ov hov
  by_cases h1 : cur ≠ [] ∧ maxS < cur.length + u.length
  · by_cases h2 : get_overlap_text cur ov = []
    · have hcur2 : (if (([pyStripL cur], get_overlap_text cur ov)).2 ≠ []
          then (([pyStripL cur], get_overlap_text cur ov)).2 ++ '\n' :: '\n' :: u
          else u) = u := by
        simp [h2]
      by_cases h3 : minS ≤ u.length ∧ (7 * maxS ≤ 10 * u.length ∨ u = last_unit)
      · have he : pack_unit_step last_unit minS maxS ov cur u
            = ([pyStripL cur, pyStripL u], []) := by
          simp only [pack_unit_step, if_pos h1, hcur2, if_pos h3]
          rfl
        rw [he]
        refine ⟨?_, by simp⟩
        intro c hc
        rcases List.mem_cons.mp hc with rfl | hc
        · omega
        · rw [List.mem_singleton] at hc
          subst hc
          have := pyStripL_length_le u
          omega
      · have he : pack_unit_step last_unit minS maxS ov cur u
            = ([pyStripL cur], u) := by
          simp only [pack_unit_step, if_pos h1, hcur2, if_neg h3]
        rw [he]
        refine ⟨?_, by simp only []; omega⟩
        intro c hc
        rw [List.mem_singleton] at hc
        subst hc
        omega
    · have hcur2 : (if (([pyStripL cur], get_overlap_text cur ov)).2 ≠ []
          then (([pyStripL cur], get_overlap_text cur ov)).2 ++ '\n' :: '\n' :: u
          else u) = get_overlap_text cur ov ++ '\n' :: '\n' :: u := by
        simp [h2]
      have hlen2 : (get_overlap_text cur ov ++ '\n' :: '\n' :: u).length ≤ maxS + ov + 2 := by
        simp only [List.length_append, List.length_cons]
        omega
      by_cases h3 : minS ≤ (get_overlap_text cur ov ++ '\n' :: '\n' :: u).length ∧
          (7 * maxS ≤ 10 * (get_overlap_text cur ov ++ '\n' :: '\n' :: u).length ∨
            u = last_unit)
      · have he : pack_unit_step last_unit minS maxS ov cur u
            = ([pyStripL cur, pyStripL (get_overlap_text cur ov ++ '\n' :: '\n' :: u)],
               []) := by
          simp only [pack_unit_step, if_pos h1, hcur2, if_pos h3]
          rfl
        rw [he]
        refine ⟨?_, by simp⟩
        intro c hc
        rcases List.mem_cons.mp hc with rfl | hc
        · omega
        · rw [List.mem_singleton] at hc
          subst hc
          exact le_trans (pyStripL_length_le _) hlen2
      · have he : pack_unit_step last_unit minS maxS ov cur u
            = ([pyStripL cur], get_overlap_text cur ov ++ '\n' :: '\n' :: u) := by
          simp only [pack_unit_step, if_pos h1, hcur2, if_neg h3]
        rw [he]
        refine ⟨?_, hlen2⟩
        intro c hc
        rw [List.mem_singleton] at hc
        subst hc
        omega
  · have hfit : cur = [] ∨ cur.length + u.length ≤ maxS := by
      by_cases hne : cur = []
      · exact Or.inl hne
      · right
        rcases not_and_or.mp h1 with h | h
        · exact absurd hne (by simpa using h)
        · omega
    by_cases hne : cur = []
    · have hcur2 : (if (([] : List (List Char)), cur).2 ≠ []
          then (([] : List (List Char)), cur).2 ++ '\n' :: '\n' :: u else u) = u := by
        simp [hne]
      by_cases h3 : minS ≤ u.length ∧ (7 * maxS ≤ 10 * u.length ∨ u = last_unit)
      · have he : pack_unit_step last_unit minS maxS ov cur u = ([pyStripL u], []) := by
          simp only [pack_unit_step, if_neg h1, hcur2, if_pos h3]
          rfl
        rw [he]
        refine ⟨?_, by simp⟩
        intro c hc
        rw [List.mem_singleton] at hc
        subst hc
        have := pyStripL_length_le u
        omega
      · have he : pack_unit_step last_unit minS maxS ov cur u = ([], u) := by
          simp only [pack_unit_step, if_neg h1, hcur2, if_neg h3]
        rw [he]
        exact ⟨fun c hc => absurd hc (List.not_mem_nil _), by simp only []; omega⟩
    · have hle : cur.length + u.length ≤ maxS := hfit.resolve_left hne
      have hcur2 : (if (([] : List (List Char)), cur).2 ≠ []
          then (([] : List (List Char)), cur).2 ++ '\n' :: '\n' :: u else u)
          = cur ++ '\n' :: '\n' :: u := by
        simp [hne]
      have hlen2 : (cur ++ '\n' :: '\n' :: u).length ≤ maxS + ov + 2 := by
        simp only [List.length_append, List.length_cons]
        omega
      by_cases h3 : minS ≤ (cur ++ '\n' :: '\n' :: u).length ∧
          (7 * maxS ≤ 10 * (cur ++ '\n' :: '\n' :: u).length ∨ u = last_unit)
      · have he : pack_unit_step last_unit minS maxS ov cur u
            = ([pyStripL (cur ++ '\n' :: '\n' :: u)], []) := by
          simp only [pack_unit_step, if_neg h1, hcur2, if_pos h3]
          rfl
        rw [he]
        refine ⟨?_, by simp⟩
        intro c hc
        rw [List.mem_singleton] at hc
        subst hc
        exact le_trans (pyStripL_length_le _) hlen2
      · have he : pack_unit_step last_unit minS maxS ov cur u
            = ([], cur ++ '\n' :: '\n' :: u) := by
          simp only [pack_unit_step, if_neg h1, hcur2, if_neg h3]
        rw [he]
        exact ⟨fun c hc => absurd hc (List.not_mem_nil _), hlen2⟩

theorem process_units_bound (last_unit : List Char) (minS maxS ov : Nat) (hov : 0 < ov) :
    ∀ (us : List (List Char)) (cur : List Char), cur.length ≤ maxS + ov + 2 →
      ∀ c ∈ process_units last_unit minS maxS ov us cur,
        c.length ≤ maxS + ov + 2 ∨
        ∃ u ∈ us, maxS < u.length ∧ maxS < max_sentence_len u ∧
          c.length ≤ max_sentence_len u + ov + 1
  | [], cur, hcur, c, hc => by
    simp only [process_units] at hc
    split at hc
    · rw [List.mem_singleton] at hc
      subst hc
      exact Or.inl (le_trans (pyStripL_length_le _) hcur)
    · cases hc
  | u :: us, cur, hcur, c, hc => by
    simp only [process_units] at hc
    split at hc
    · rename_i hu
      rcases List.mem_append.mp hc with h | h
      · exact Or.inl ((pack_unit_step_bound last_unit minS maxS ov hov cur u hcur hu).1 c h)
      · rcases process_units_bound last_unit minS maxS ov hov us _
            (pack_unit_step_bound last_unit minS maxS ov hov cur u hcur hu).2 c h with
          h2 | ⟨u', hu', hrest⟩
        · exact Or.inl h2
        · exact Or.inr ⟨u', List.mem_cons_of_mem _ hu', hrest⟩
    · rename_i hu
      push_neg at hu
      rcases List.mem_append.mp hc with h | h
      · rcases List.mem_append.mp h with h3 | h3
        · split at h3
          · rw [List.mem_singleton] at h3
            subst h3
            exact Or.inl (le_trans (pyStripL_length_le _) hcur)
          · cases h3
        · have hb := split_by_sentences_bound u maxS ov hov c h3
          by_cases hM : max_sentence_len u ≤ maxS
          · left
            rw [max_eq_left hM] at hb
            omega
          · right
            push_neg at hM
            refine ⟨u, List.mem_cons_self _ _, hu, hM, ?_⟩
            rw [max_eq_right (le_of_lt hM)] at hb
            omega
      · rcases process_units_bound last_unit minS maxS ov hov us []
            (by simp) c h with h2 | ⟨u', hu', hrest⟩
        · exact Or.inl h2
        · exact Or.inr ⟨u', List.mem_cons_of_mem _ hu', hrest⟩

/-- Size bound at the `_process_semantic_units` level, for any positive
overlap. -/
theorem process_semantic_units_size_bound (units : List (List Char))
    (min_size max_size overlap : Nat) (hov : 0 < overlap) (c : List Char)
    (hc : c ∈ process_semantic_units units min_size max_size overlap) :
    c.length ≤ max_size + overlap + 2 ∨
    ∃ u ∈ units, max_size < u.length ∧ ∃ s ∈ sentences_of u,
      max_size < s.length ∧ c.length ≤ s.length + overlap + 1 := by
  have hc' : c ∈ process_units ((units.getLast?).getD []) min_size max_size overlap
      units [] := by
    have h2 : c ∈ process_units ((units.getLast?).getD []) min_size max_size overlap
        units [] ∧ ¬c = [] := by
      simpa [process_semantic_units, List.mem_filter] using hc
    exact h2.1
  rcases process_units_bound _ min_size max_size overlap hov units [] (by simp) c hc' with
    h | ⟨u, hu, hlen, hM, hcb⟩
  · exact Or.inl h
  · right
    have hMpos : 0 < max_sentence_len u := lt_of_le_of_lt (Nat.zero_le _) hM
    rcases exists_mem_of_foldr_max_pos _ hMpos with ⟨s, hs, he⟩
    refine ⟨u, hu, hlen, s, hs, ?_, ?_⟩
    · rw [he]; exact hM
    · rw [he]; exact hcb

theorem resolve_overlap_pos (overlap : Option Nat) : 0 < resolve_overlap overlap := by
  rcases overlap with _ | n
  · decide
  · by_cases h : n = 0 <;> simp [resolve_overlap, h] <;> omega

/-- C3 (amended): every chunk the chunker produces with the resolved
`max_size` and `overlap` parameters has length at most
`max_size + overlap + 2` (the `+2` is the uncounted `"\n\n"` joiner and the
`+overlap` the seeded overlap text), except chunks built from a semantic unit
over `max_size` one of whose sentences alone exceeds `max_size`: such a chunk
is bounded by that sentence's length plus `overlap + 1` (the sentence is kept
unsplit but may carry an overlap prefix rather than standing alone). -/
theorem chunker_size_bound_amended (text : List Char) (chunk_size overlap : Option Nat)
    (c : List Char) (hc : c ∈ chunk_text_chars text chunk_size overlap) :
    c.length ≤ resolve_chunk_size chunk_size + resolve_overlap overlap + 2 ∨
    ∃ u ∈ chunk_units (normalize_whitespace text),
      resolve_chunk_size chunk_size < u.length ∧ ∃ s ∈ sentences_of u,
        resolve_chunk_size chunk_size < s.length ∧
        c.length ≤ s.length + resolve_overlap overlap + 1 := by
  simp only [chunk_text_chars] at hc
  split at hc
  · cases hc
  · exact process_semantic_units_size_bound _ 300 _ _ (resolve_overlap_pos overlap) c hc

/-- C3 witness: the amended bound applied to the chunk `"ab"` produced by
`chunk_text("ab")` with the default parameters. -/
theorem chunker_size_bound_amended_witness :
    "ab".toList ∈ chunk_text_chars "ab".toList none none ∧
    ("ab".toList.length ≤ resolve_chunk_size none + resolve_overlap none + 2 ∨
      ∃ u ∈ chunk_units (normalize_whitespace "ab".toList),
        resolve_chunk_size none < u.length ∧ ∃ s ∈ sentences_of u,
          resolve_chunk_size none < s.length ∧
          "ab".toList.length ≤ s.length + resolve_overlap none + 1) := by
  have h : "ab".toList ∈ chunk_text_chars "ab".toList none none := by
    simp +decide [chunk_text_chars, chunk_units, normalize_whitespace, collapse_space_tab,
      collapse_newlines, emit_newlines, pyStripL, is_structured_document, scan_count,
      match_di_tiao, match_article, match_section, match_keyword_num, cjk_numeral,
      split_by_paragraphs, split_paragraph_pieces, last_newline_idx, pyStrip,
      process_semantic_units, process_units, pack_unit_step, get_overlap_text,
      resolve_chunk_size, resolve_overlap, pyIsSpace]
  exact ⟨h, chunker_size_bound_amended "ab".toList none none "ab".toList h⟩

/-- The buffer contents right after an overflow flush of the unit-packing
loop: the overlap text joined to the unit by a blank line (just the unit when
the overlap text is empty, since `current_chunk += "\n\n" + unit if
current_chunk else unit`). -/
def overflow_buffer (cur u : List Char) (ov : Nat) : List Char :=
  if get_overlap_text cur ov ≠ [] then get_overlap_text cur ov ++ '\n' :: '\n' :: u
  else u

theorem pyStripL_cons_concat (a b : Char) (m : List Char)
    (ha : pyIsSpace a = false) (hb : pyIsSpace b = false) :
    pyStripL (a :: (m ++ [b])) = a :: (m ++ [b]) := by
  unfold pyStripL
  rw [List.dropWhile_cons, ha]
  simp only [Bool.false_eq_true, if_false]
  rw [show (a :: (m ++ [b])).reverse = b :: (m.reverse ++ [a]) from by simp]
  rw [List.dropWhile_cons, hb]
  simp

/-- C4 (amended): overlap text is carried across a chunk boundary only when
the flush was caused by overflow.  (a) The word-aligned overlap text consists
of at most `overlap` characters and is a suffix of the flushed buffer, up to
stripping; (b) at an overflow flush (`current` non-empty and
`len(current) + len(unit) > max_size`), the step emits the stripped buffer and
seeds the successor buffer with the overlap text followed by `"\n\n"` and the
unit; (c) when that successor buffer starts and ends with non-whitespace
characters, stripping preserves it, so the overlap text survives as a prefix
of the successor chunk; (d) a flush not caused by overflow (the
`min_size`/70%/last-unit rule) resets the buffer to empty — those adjacent
chunks share no overlap. -/
theorem chunk_overlap_amended :
    (∀ (t : List Char) (ov : Nat), 0 < ov →
       (get_overlap_text t ov).length ≤ ov ∧
       ∃ s, s <:+ t ∧ (get_overlap_text t ov = s ∨ get_overlap_text t ov = pyStripL s))
    ∧ (∀ (last_unit : List Char) (minS maxS ov : Nat) (cur u : List Char),
         cur ≠ [] → maxS < cur.length + u.length →
         pack_unit_step last_unit minS maxS ov cur u =
           (if minS ≤ (overflow_buffer cur u ov).length ∧
               (7 * maxS ≤ 10 * (overflow_buffer cur u ov).length ∨ u = last_unit)
            then ([pyStripL cur, pyStripL (overflow_buffer cur u ov)], [])
            else ([pyStripL cur], overflow_buffer cur u ov)))
    ∧ (∀ (a b : Char) (o' u' : List Char),
         pyIsSpace a = false → pyIsSpace b = false →
         pyStripL ((a :: o') ++ '\n' :: '\n' :: (u' ++ [b]))
             = (a :: o') ++ '\n' :: '\n' :: (u' ++ [b]) ∧
         (a :: o') <+: pyStripL ((a :: o') ++ '\n' :: '\n' :: (u' ++ [b])))
    ∧ (∀ (last_unit : List Char) (minS maxS ov : Nat) (cur u : List Char),
         (cur = [] ∨ cur.length + u.length ≤ maxS) →
         (pack_unit_step last_unit minS maxS ov cur u).1 ≠ [] →
         (pack_unit_step last_unit minS maxS ov cur u).2 = []) := by
  refine ⟨?_, ?_, ?_, ?_⟩
  · intro t ov hov
    refine ⟨get_overlap_text_length_le t ov hov, ?_⟩
    unfold get_overlap_text
    split
    · exact ⟨t, List.suffix_refl t, Or.inl rfl⟩
    · have hsfx : py_slice_last t ov <:+ t := by
        unfold py_slice_last
        rw [if_neg (Nat.pos_iff_ne_zero.mp hov)]
        exact List.drop_suffix _ _
      rcases hf : (py_slice_last t ov).findIdx? (fun c => c == ' ') with _ | p
      · simp only [hf]
        exact ⟨py_slice_last t ov, hsfx, Or.inl rfl⟩
      · simp only [hf]
        split
        · exact ⟨(py_slice_last t ov).drop p,
            (List.drop_suffix _ _).trans hsfx, Or.inr rfl⟩
        · exact ⟨py_slice_last t ov, hsfx, Or.inl rfl⟩
  · intro last_unit minS maxS ov cur u hne hover
    simp only [pack_unit_step, overflow_buffer, if_pos (And.intro hne hover)]
    split
    · rfl
    · rfl
  · intro a b o' u' ha hb
    have heq : (a :: o') ++ '\n' :: '\n' :: (u' ++ [b])
        = a :: ((o' ++ '\n' :: '\n' :: u') ++ [b]) := by
      simp
    constructor
    · rw [heq, pyStripL_cons_concat a b _ ha hb]
    · rw [heq, pyStripL_cons_concat a b _ ha hb, ← heq]
      exact List.prefix_append _ _
  · intro last_unit minS maxS ov cur u hfit h1
    have hno : ¬(cur ≠ [] ∧ maxS < cur.length + u.length) := by
      rcases hfit with h | h
      · simp [h]
      · intro hcontra
        omega
    simp only [pack_unit_step, if_neg hno] at h1 ⊢
    by_cases hne : cur ≠ []
    · simp only [if_pos hne] at h1 ⊢
      split at h1
      · rename_i hcond2
        rw [if_pos hcond2]
      · simp at h1
    · simp only [if_neg hne] at h1 ⊢
      split at h1
      · rename_i hcond2
        rw [if_pos hcond2]
      · simp at h1

/-- C4 witness: the overflow-step conjunct applied to buffer `"defg"` and unit
`"abc"` with `min_size = 0`, `max_size = 5`, `overlap = 2`: the step emits the
flushed buffer `"defg"` and the successor chunk `"fg\n\nabc"` carrying the
overlap text `"fg"` as prefix. -/
theorem chunk_overlap_amended_witness :
    ("defg".toList ≠ [] ∧ 5 < "defg".toList.length + "abc".toList.length) ∧
    pack_unit_step [] 0 5 2 "defg".toList "abc".toList =
      (if 0 ≤ (overflow_buffer "defg".toList "abc".toList 2).length ∧
          (7 * 5 ≤ 10 * (overflow_buffer "defg".toList "abc".toList 2).length ∨
            "abc".toList = [])
       then ([pyStripL "defg".toList,
              pyStripL (overflow_buffer "defg".toList "abc".toList 2)], [])
       else ([pyStripL "defg".toList], overflow_buffer "defg".toList "abc".toList 2)) :=
  ⟨⟨by decide, by decide⟩,
    chunk_overlap_amended.2.1 [] 0 5 2 "defg".toList "abc".toList (by decide) (by decide)⟩

/-- `sum(1 for c in page_text if "一" <= c <= "鿿")`. -/
def count_cjk (l : List Char) : Nat :=
  (l.filter (fun c => decide ('一' ≤ c ∧ c ≤ '鿿'))).length

/-- The page loop of PDF extraction (document_service.py lines 144-172): a
`none` page models `page.extract_text()` raising (caught, page skipped);
pages whose stripped text is empty are skipped; a page is kept when its CJK
characters are more than 30% of `len(page_text.strip())` — the denominator is
the stripped page text, interior whitespace included.  `ratio > 0.3` is the
exact rational test `3 * total < 10 * cjk`. -/
def pdf_kept_pages : List (Option String) → List String
  | [] => []
  | none :: ps => pdf_kept_pages ps
  | some p :: ps =>
    if pyStrip p = "" then pdf_kept_pages ps
    else
      if 0 < (pyStrip p).length then
        if 3 * (pyStrip p).length < 10 * count_cjk p.toList then p :: pdf_kept_pages ps
        else pdf_kept_pages ps
      else pdf_kept_pages ps

/-- The page filter as the specification words it: the ratio of CJK characters
to total NON-WHITESPACE characters of the page.  Stated only to compare with
the source's `pdf_kept_pages`, whose denominator is `len(page_text.strip())`. -/
def pdf_kept_pages_spec : List (Option String) → List String
  | [] => []
  | none :: ps => pdf_kept_pages_spec ps
  | some p :: ps =>
    if pyStrip p = "" then pdf_kept_pages_spec ps
    else
      if 0 < (p.toList.filter (fun c => !pyIsSpace c)).length then
        if 3 * (p.toList.filter (fun c => !pyIsSpace c)).length < 10 * count_cjk p.toList
        then p :: pdf_kept_pages_spec ps
        else pdf_kept_pages_spec ps
      else pdf_kept_pages_spec ps

/-- `"\n".join` of paragraph texts then table-cell texts whose strip is
non-empty (document_service.py lines 181-202). -/
def docx_extract_text (paragraphs table_cells : List String) : String :=
  String.intercalate "\n"
    ((paragraphs.filter (fun t => pyStrip t ≠ "")) ++
     (table_cells.filter (fun t => pyStrip t ≠ "")))

/-- The exceptions `extract_text` raises: `FileNotFoundError` and the
`ValueError` for an unsupported type. -/
inductive ExtractErr
  | notFound (file_path : String)
  | unsupportedType (file_type : String)
deriving DecidableEq, Repr

/-- Oracle for the filesystem and parsing libraries: whether the file exists,
and what the txt/pdf/docx readers would yield for it. -/
structure FileOracle where
  file_present : Bool
  txt_content : String
  pdf_pages : List (Option String)
  docx_paragraphs : List String
  docx_table_cells : List String

/-- `file_type.lower()` (ASCII case folding, which covers file extensions). -/
def py_lower (s : String) : String :=
  String.mk (s.toList.map Char.toLower)

/-- `DocumentProcessor.extract_text` (document_service.py lines 106-212): the
`os.path.exists` check precedes the type dispatch; the declared type is
lowercased; a type outside `{txt, pdf, docx, doc}` raises `ValueError`
(UnsupportedType).  The `ImportError` fallback models an environment failure
outside this embedding. -/
def extract_text (fs : FileOracle) (file_path file_type : String) :
    Except ExtractErr String :=
  if fs.file_present = false then .error (.notFound file_path)
  else
    let ft := py_lower file_type
    if ft = "txt" then .ok fs.txt_content
    else if ft = "pdf" then
      .ok (String.intercalate "\n\n" (pdf_kept_pages fs.pdf_pages))
    else if ft = "docx" ∨ ft = "doc" then
      .ok (docx_extract_text fs.docx_paragraphs fs.docx_table_cells)
    else .error (.unsupportedType ft)

/-- C6 (amended): PDF extraction keeps exactly the error-free pages whose
stripped text is non-empty and whose CJK-character count exceeds 30% of the
STRIPPED page length (interior whitespace counted in the denominator, unlike
the spec's "total non-whitespace characters"), and concatenates them with
blank lines. -/
theorem pdf_page_filter_amended : ∀ pages : List (Option String),
    pdf_kept_pages pages = pages.filterMap (fun p? => p?.bind (fun p =>
      if pyStrip p ≠ "" ∧ 3 * (pyStrip p).length < 10 * count_cjk p.toList
      then some p else none)) := by
  intro pages
  induction pages with
  | nil => rfl
  | cons p? ps ih =>
    match p? with
    | none => simpa [pdf_kept_pages] using ih
    | some p =>
      by_cases h1 : pyStrip p = ""
      · simp [pdf_kept_pages, h1, ih]
      · have hpos : 0 < (pyStrip p).length := by
          rcases Nat.eq_zero_or_pos (pyStrip p).length with h0 | h0
          · exact absurd (String.ext (List.length_eq_zero.mp h0)) h1
          · exact h0
        by_cases h2 : 3 * (pyStrip p).length < 10 * count_cjk p.toList
        all_goals
          simp only [String.toList] at h2
          simp [pdf_kept_pages, h1, hpos, h2, ih]

/-- C6 counterexample: the page `"中   x"` has 1 CJK character among 2
non-whitespace characters (ratio `1/2 > 0.3`, kept under the spec's wording),
but the source divides by `len(page_text.strip()) = 5` (ratio `1/5 ≤ 0.3`)
and discards it. -/
theorem pdf_page_filter_cex :
    pdf_kept_pages [some "中   x"] = [] ∧
    pdf_kept_pages_spec [some "中   x"] = ["中   x"] := by
  constructor
  · decide
  · decide

/-- C8 (amended): the declared-type check happens only after the existence
check: when the file exists, any declared type whose lowercasing is outside
`{txt, pdf, docx, doc}` fails with UnsupportedType; but when the file is
missing, `extract_text` fails with NotFound regardless of the declared type,
so an unsupported type with a missing file is reported as NotFound, not
UnsupportedType. -/
theorem extract_text_unsupported_amended :
    (∀ (fs : FileOracle) (fp ft : String), fs.file_present = true →
       py_lower ft ≠ "txt" →
       py_lower ft ≠ "pdf" →
       py_lower ft ≠ "docx" →
       py_lower ft ≠ "doc" →
       extract_text fs fp ft = .error (.unsupportedType (py_lower ft)))
    ∧ (∀ (fs : FileOracle) (fp ft : String), fs.file_present = false →
       extract_text fs fp ft = .error (.notFound fp)) := by
  constructor
  · intro fs fp ft hpres h1 h2 h3 h4
    simp [extract_text, hpres, h1, h2, h3, h4]
  · intro fs fp ft hpres
    simp [extract_text, hpres]

/-- C8 witness: a present file with declared type `"xyz"` is rejected as
UnsupportedType. -/
theorem extract_text_unsupported_amended_witness :
    (({ file_present := true, txt_content := "", pdf_pages := [],
          docx_paragraphs := [], docx_table_cells := [] } : FileOracle).file_present = true ∧
      py_lower "xyz" ≠ "txt" ∧ py_lower "xyz" ≠ "pdf" ∧
      py_lower "xyz" ≠ "docx" ∧ py_lower "xyz" ≠ "doc") ∧
    extract_text { file_present := true, txt_content := "", pdf_pages := [],
                     docx_paragraphs := [], docx_table_cells := [] } "/tmp/a.xyz" "xyz"
      = .error (.unsupportedType (py_lower "xyz")) :=
  ⟨⟨rfl, by decide, by decide, by decide, by decide⟩,
    extract_text_unsupported_amended.1 _ "/tmp/a.xyz" "xyz" rfl (by decide) (by decide)
      (by decide) (by decide)⟩

/-- C8 counterexample: with a missing file and the unsupported declared type
`"xyz"`, `extract_text` raises FileNotFoundError (NotFound), not the
UnsupportedType error the claim specifies — the `os.path.exists` check (an
I/O operation) runs before the type check. -/
theorem extract_text_unsupported_cex :
    extract_text { file_present := false, txt_content := "", pdf_pages := [],
                     docx_paragraphs := [], docx_table_cells := [] } "/tmp/a.xyz" "xyz"
      = .error (.notFound "/tmp/a.xyz") ∧
    (ExtractErr.notFound "/tmp/a.xyz") ≠ (ExtractErr.unsupportedType "xyz") := by
  exact ⟨rfl, by decide⟩

/-- `range(0, len(texts), batch_size)` slicing: consecutive batches of at most
`n` texts.  (`n = 0` has Python's `range` raise; the guard keeps the model
total and is unreachable from the source's call sites.) -/
def batches_of (n : Nat) (l : List String) : List (List String) :=
  if l = [] ∨ n = 0 then []
  else l.take n :: batches_of n (l.drop n)
termination_by l.length
decreasing_by
  rename_i h
  push_neg at h
  have hl : 0 < l.length := List.length_pos.mpr h.1
  rw [List.length_drop]
  omega

theorem batches_of_ne_nil_aux (n : Nat) (hn : 0 < n) :
    ∀ (k : Nat) (l : List String), l.length ≤ k → ∀ b ∈ batches_of n l, b ≠ [] := by
  intro k
  induction k with
  | zero =>
    intro l hl b hb
    have h0 : l = [] := List.length_eq_zero.mp (Nat.le_zero.mp hl)
    subst h0
    rw [batches_of] at hb
    simp at hb
  | succ k ih =>
    intro l hl b hb
    rw [batches_of] at hb
    split at hb
    · cases hb
    · rename_i hcond
      push_neg at hcond
      rcases List.mem_cons.mp hb with h | h
      · subst h
        rcases l with _ | ⟨a, as⟩
        · exact absurd rfl hcond.1
        · rcases n with _ | m
          · omega
          · simp
      · refine ih (l.drop n) ?_ b h
        rw [List.length_drop]
        have hp : 0 < l.length := List.length_pos.mpr hcond.1
        omega

theorem batches_of_ne_nil (n : Nat) (hn : 0 < n) (l : List String) :
    ∀ b ∈ batches_of n l, b ≠ [] :=
  batches_of_ne_nil_aux n hn l.length l (le_refl _)

theorem batches_of_flatten_aux (n : Nat) (hn : 0 < n) :
    ∀ (k : Nat) (l : List String), l.length ≤ k → (batches_of n l).flatten = l := by
  intro k
  induction k with
  | zero =>
    intro l hl
    have h0 : l = [] := List.length_eq_zero.mp (Nat.le_zero.mp hl)
    subst h0
    rw [batches_of]
    simp
  | succ k ih =>
    intro l hl
    rw [batches_of]
    split
    · rename_i h
      rcases h with h | h
      · simp [h]
      · omega
    · rename_i h
      push_neg at h
      rw [List.flatten_cons]
      rw [ih (l.drop n) (by
        rw [List.length_drop]
        have hp : 0 < l.length := List.length_pos.mpr h.1
        omega)]
      exact List.take_append_drop n l

theorem batches_of_flatten (n : Nat) (hn : 0 < n) (l : List String) :
    (batches_of n l).flatten = l :=
  batches_of_flatten_aux n hn l.length l (le_refl _)

/-- The batch loop of `generate_embeddings` (bedrock_client.py lines
141-193): one backend call per batch (the counter counts `invoke_model`
calls); an empty `embeddings.float` response raises `ValueError`.  The
backend is modelled per the external interface contract — one vector per text
in matching order — as a per-text function `f`. -/
def embeddings_loop (f : String → List ℚ) :
    List (List String) → List (List ℚ) → Nat → Except String (List (List ℚ)) × Nat
  | [], acc, calls => (.ok acc, calls)
  | b :: bs, acc, calls =>
    let batch_embeddings := b.map f
    if batch_embeddings = [] then
      (.error "No embeddings returned from Bedrock API", calls + 1)
    else embeddings_loop f bs (acc ++ batch_embeddings) (calls + 1)

/-- `BedrockClient.generate_embeddings` (bedrock_client.py lines 112-204),
paired with the number of backend calls issued.  `batch_size = min(batch_size,
96)`; the inter-batch `time.sleep` pacing does not affect the value. -/
def generate_embeddings (f : String → List ℚ) (texts : List String)
    (input_type : String) (batch_size : Nat) :
    Except String (List (List ℚ)) × Nat :=
  if texts = [] then (.ok [], 0)
  else
    let bs := min batch_size 96
    if bs = 0 then (.error "range() arg 3 must not be zero", 0)
    else embeddings_loop f (batches_of bs texts) [] 0

theorem embeddings_loop_ok (f : String → List ℚ) :
    ∀ (bs : List (List String)) (acc : List (List ℚ)) (calls : Nat),
      (∀ b ∈ bs, b ≠ []) →
      embeddings_loop f bs acc calls
        = (.ok (acc ++ (bs.flatten).map f), calls + bs.length)
  | [], acc, calls, _ => by simp [embeddings_loop]
  | b :: bs, acc, calls, h => by
    have hb : b ≠ [] := h b (List.mem_cons_self _ _)
    have hbe : b.map f ≠ [] := by simpa using hb
    simp only [embeddings_loop, if_neg hbe]
    rw [embeddings_loop_ok f bs (acc ++ b.map f) (calls + 1)
      (fun x hx => h x (List.mem_cons_of_mem _ hx))]
    simp only [List.flatten_cons, List.map_append, List.append_assoc, List.length_cons,
      Prod.mk.injEq, Except.ok.injEq]
    exact ⟨trivial, by omega⟩

/-- C9: with the embedding backend honoring its interface contract (one
vector per text, matching order), `generate_embeddings` returns exactly one
embedding per input text, in input order (`texts.map f`); the empty input
returns `[]` with zero backend calls. -/
theorem generate_embeddings_spec (f : String → List ℚ) (texts : List String)
    (input_type : String) (batch_size : Nat) (h : 0 < batch_size) :
    (generate_embeddings f texts input_type batch_size).1 = .ok (texts.map f) ∧
    (texts = [] → (generate_embeddings f texts input_type batch_size).2 = 0) := by
  by_cases he : texts = []
  · subst he
    exact ⟨rfl, fun _ => rfl⟩
  · have hbs : 0 < min batch_size 96 := lt_min h (by norm_num)
    refine ⟨?_, fun h0 => absurd h0 he⟩
    simp only [generate_embeddings, if_neg he]
    rw [if_neg (Nat.pos_iff_ne_zero.mp hbs)]
    rw [embeddings_loop_ok f _ [] 0 (batches_of_ne_nil _ hbs texts)]
    rw [batches_of_flatten _ hbs texts]
    simp

/-- C9 witness: the theorem applied to two texts with a concrete per-text
embedding at the default batch size 96. -/
theorem generate_embeddings_spec_witness :
    (0 < 96) ∧
    ((generate_embeddings (fun t => [(t.length : ℚ)]) ["a", "bb"] "search_document" 96).1
        = .ok ((["a", "bb"] : List String).map (fun t => [(t.length : ℚ)])) ∧
      ((["a", "bb"] : List String) = [] →
        (generate_embeddings (fun t => [(t.length : ℚ)]) ["a", "bb"] "search_document" 96).2
          = 0)) :=
  ⟨by decide, generate_embeddings_spec _ _ _ 96 (by decide)⟩

/-- Word characters of Python `\w` restricted to the alphabets this corpus
uses: ASCII alphanumerics, underscore, CJK. -/
def py_word_char (c : Char) : Bool :=
  c.isAlphanum || c = '_' || decide ('一' ≤ c ∧ c ≤ '鿿')

/-- `re.sub(r"\s+", " ", ·)`: collapse every whitespace run to one space. -/
def collapse_ws_runs (prev : Bool) : List Char → List Char
  | [] => []
  | c :: cs =>
    if pyIsSpace c then
      if prev then collapse_ws_runs true cs else ' ' :: collapse_ws_runs true cs
    else c :: collapse_ws_runs false cs

/-- `DocumentProcessor.create_bm25_indexes` (document_service.py lines
501-526) on one chunk: non-word non-space characters become spaces, then
whitespace runs collapse, then strip, then lowercase. -/
def create_bm25_index (chunk : String) : String :=
  String.mk
    ((pyStripL (collapse_ws_runs false
        (chunk.toList.map (fun c => if py_word_char c || pyIsSpace c then c else ' ')))).map
      Char.toLower)

/-- The chunk loop of `create_bm25_indexes`. -/
def create_bm25_indexes (chunks : List String) : List String :=
  chunks.map create_bm25_index

/-- Status and error fields of one Document row. -/
structure DocState where
  status : String
  error_message : Option String
deriving DecidableEq, Repr

/-- The structured outcome dict `process_document_sync` returns. -/
inductive ProcOutcome
  | success (document_id : String) (chunks_created : Nat)
  | failure (document_id : String) (error : String)
deriving DecidableEq, Repr

/-- `DocumentProcessor._update_document_status` (document_service.py lines
578-611): sets the status, and the error message only when one is given. -/
def update_document_status (st : DocState) (status : String)
    (error_message : Option String) : DocState :=
  { status := status,
    error_message := match error_message with
      | some e => some e
      | none => st.error_message }

/-- `save_chunks_to_db`'s length guard (document_service.py lines 544-545)
plus the bulk-commit oracle: `ValueError` on a length mismatch, otherwise the
database commit either succeeds or raises with the oracle's message. -/
def save_chunks_to_db (chunks : List String) (embeddings : List (List ℚ))
    (bm25_vectors : List String) (commit : Except String Unit) :
    Except String Unit :=
  if chunks.length = embeddings.length ∧ embeddings.length = bm25_vectors.length then
    commit
  else .error "Chunks, embeddings, and BM25 vectors must have same length"

/-- `DocumentProcessor.process_document_sync` (document_service.py lines
37-104).  `extract_outcome` is the oracle outcome of `extract_text` (the
error string is what `str(e)` records on the document), `embed_outcome` the
oracle for `generate_embeddings` over the chunk list, `commit` the bulk
insert.  The status store is modelled as reliable: the swallow-errors branch
of `_update_document_status` concerns a failing status WRITE, which is not
one of the pipeline's steps 2-6. -/
def process_document_sync (document_id : String)
    (extract_outcome : Except String String)
    (embed_outcome : List String → Except String (List (List ℚ)))
    (commit : Except String Unit) (st0 : DocState) : DocState × ProcOutcome :=
  let st1 := update_document_status st0 "processing" none
  let run : Except String Nat := do
    let text ← extract_outcome
    if text = "" ∨ pyStrip text = "" then
      throw "No text content extracted from document"
    let chunks := chunk_text text none none
    let embeddings ← embed_outcome chunks
    let bm25_vectors := create_bm25_indexes chunks
    let _ ← save_chunks_to_db chunks embeddings bm25_vectors commit
    pure chunks.length
  match run with
  | .ok n =>
    (update_document_status st1 "completed" none, .success document_id n)
  | .error e =>
    (update_document_status st1 "failed" (some e), .failure document_id e)

/-- C5: for every outcome of extraction, chunking, embedding and persistence,
`process_document_sync` returns a structured outcome rather than re-raising;
the document ends in status `completed` or `failed` — never stuck in
`processing` — and on failure the error message is recorded on the Document
and returned in the outcome. -/
theorem process_document_sync_spec (document_id : String)
    (extract_outcome : Except String String)
    (embed_outcome : List String → Except String (List (List ℚ)))
    (commit : Except String Unit) (st0 : DocState) :
    ((process_document_sync document_id extract_outcome embed_outcome commit st0).1.status
        = "completed" ∧
      ∃ n, (process_document_sync document_id extract_outcome embed_outcome commit st0).2
            = .success document_id n) ∨
    (∃ e, (process_document_sync document_id extract_outcome embed_outcome commit st0).1.status
          = "failed" ∧
      (process_document_sync document_id extract_outcome embed_outcome
          commit st0).1.error_message = some e ∧
      (process_document_sync document_id extract_outcome embed_outcome commit st0).2
          = .failure document_id e) := by
  simp only [process_document_sync]
  split
  · left
    exact ⟨rfl, _, rfl⟩
  · right
    exact ⟨_, rfl, rfl, rfl⟩
